import Mathlib

/-!
Shallow embedding of the analytics core of `src/backend.py` (a portfolio
performance backend).  Python floats are modelled as rationals, Python
canonical `YYYY-MM-DD` date strings as `Date` triples ordered
lexicographically (string comparison on canonical date strings agrees with
chronological order), and the external collaborators (the brokerage API, the
market-data source, the `pyxirr` root finder) as explicit function
parameters returning `Option`, with `none` standing for a raised exception
or a failed lookup.  `datetime.today()` is passed explicitly as `today`.
-/

/-- Calendar date (the date part of a Python `datetime`): year, month, day.
The Python code compares dates as canonical `YYYY-MM-DD` strings; on such
strings string order is the lexicographic order on (year, month, day)
modelled here. -/
structure Date where
  year : Nat
  month : Nat
  day : Nat
deriving DecidableEq, Repr

/-- Lexicographic order on dates, matching Python comparison of canonical
date strings (and of `datetime.date` values). -/
def Date.le (a b : Date) : Prop :=
  a.year < b.year ∨ (a.year = b.year ∧ (a.month < b.month ∨ (a.month = b.month ∧ a.day ≤ b.day)))

instance : LE Date := ⟨Date.le⟩

instance (a b : Date) : Decidable (a ≤ b) :=
  inferInstanceAs (Decidable (a.year < b.year ∨ (a.year = b.year ∧ (a.month < b.month ∨ (a.month = b.month ∧ a.day ≤ b.day)))))

theorem Date.le_def (a b : Date) :
    (a ≤ b) = (a.year < b.year ∨ (a.year = b.year ∧ (a.month < b.month ∨ (a.month = b.month ∧ a.day ≤ b.day)))) := rfl

theorem Date.le_refl (a : Date) : a ≤ a := by
  rw [Date.le_def]; omega

theorem Date.le_trans {a b c : Date} (h1 : a ≤ b) (h2 : b ≤ c) : a ≤ c := by
  rw [Date.le_def] at *; omega

/-- Leap-year predicate of the Gregorian calendar (as in Python `calendar`). -/
def Date.isLeap (y : Nat) : Bool :=
  y % 4 = 0 && (y % 100 != 0 || y % 400 = 0)

/-- Number of days of month `m` in year `y` (`calendar.monthrange`). -/
def daysInMonth (y m : Nat) : Nat :=
  if m = 2 then (if Date.isLeap y then 29 else 28)
  else if m = 4 ∨ m = 6 ∨ m = 9 ∨ m = 11 then 30
  else 31

theorem daysInMonth_pos (y m : Nat) : 1 ≤ daysInMonth y m := by
  unfold daysInMonth; split <;> [split <;> omega; split <;> omega]

theorem daysInMonth_le (y m : Nat) : daysInMonth y m ≤ 31 := by
  unfold daysInMonth; split <;> [split <;> omega; split <;> omega]

/-- Bounds satisfied by every real `datetime` date; the date-arithmetic
lemmas (and hence the date-stepping loops) require them of their inputs. -/
def Date.Loose (d : Date) : Prop :=
  1 ≤ d.month ∧ d.month ≤ 12 ∧ 1 ≤ d.day ∧ d.day ≤ 31

instance (d : Date) : Decidable d.Loose :=
  inferInstanceAs (Decidable (1 ≤ d.month ∧ d.month ≤ 12 ∧ 1 ≤ d.day ∧ d.day ≤ 31))

/-- One-day successor: the date part of `+ timedelta(days=1)`. -/
def Date.addDay (d : Date) : Date :=
  if d.day < daysInMonth d.year d.month then ⟨d.year, d.month, d.day + 1⟩
  else if d.month < 12 then ⟨d.year, d.month + 1, 1⟩
  else ⟨d.year + 1, 1, 1⟩

/-- `n`-day successor, iterating `Date.addDay`. -/
def Date.addDays (d : Date) : Nat → Date
  | 0 => d
  | n + 1 => (Date.addDay d).addDays n

/-- Order-reflecting embedding of well-formed dates into `Nat`, used as the
termination measure of the day-stepping loop. -/
def Date.dayKey (d : Date) : Nat := d.year * 450 + d.month * 31 + d.day

theorem Date.loose_addDay {d : Date} (h : d.Loose) : d.addDay.Loose := by
  obtain ⟨h1, h2, h3, h4⟩ := h
  have hle := daysInMonth_le d.year d.month
  unfold Date.addDay Date.Loose
  split
  · dsimp only; omega
  · split <;> (dsimp only; omega)

theorem Date.dayKey_addDay {d : Date} (h : d.Loose) : d.dayKey + 1 ≤ d.addDay.dayKey := by
  obtain ⟨h1, h2, h3, h4⟩ := h
  have hle := daysInMonth_le d.year d.month
  unfold Date.addDay Date.dayKey
  split
  · dsimp only; omega
  · split <;> (dsimp only; omega)

theorem Date.le_addDay (d : Date) : d ≤ d.addDay := by
  unfold Date.addDay
  split
  · rw [Date.le_def]; dsimp only; omega
  · split <;> (rw [Date.le_def]; dsimp only; omega)

theorem Date.dayKey_le_of_le {a b : Date} (ha : a.Loose) (h : a ≤ b) : a.dayKey ≤ b.dayKey := by
  obtain ⟨h1, h2, h3, h4⟩ := ha
  rw [Date.le_def] at h
  unfold Date.dayKey
  omega

theorem Date.loose_addDays {d : Date} (h : d.Loose) (n : Nat) : (d.addDays n).Loose := by
  induction n generalizing d with
  | zero => exact h
  | succ n ih => exact ih (Date.loose_addDay h)

theorem Date.dayKey_addDays {d : Date} (h : d.Loose) (n : Nat) :
    d.dayKey + n ≤ (d.addDays n).dayKey := by
  induction n generalizing d with
  | zero => simp [Date.addDays]
  | succ n ih =>
    have k1 := Date.dayKey_addDay h
    have k2 := ih (Date.loose_addDay h)
    simp only [Date.addDays] at *
    omega

theorem Date.le_addDays (d : Date) (n : Nat) : d ≤ d.addDays n := by
  induction n generalizing d with
  | zero => exact Date.le_refl d
  | succ n ih => exact Date.le_trans (Date.le_addDay d) (ih d.addDay)

/-- One-calendar-month successor with the day clamped to the target month's
length: `+ relativedelta(months=1)`. -/
def Date.stepMonth (d : Date) : Date :=
  if d.month < 12 then ⟨d.year, d.month + 1, min d.day (daysInMonth d.year (d.month + 1))⟩
  else ⟨d.year + 1, 1, min d.day (daysInMonth (d.year + 1) 1)⟩

/-- Order-reflecting embedding used as the termination measure of the
month-stepping loop. -/
def Date.monthKey (d : Date) : Nat := d.year * 13 + d.month

theorem Date.loose_stepMonth {d : Date} (h : d.Loose) : d.stepMonth.Loose := by
  obtain ⟨h1, h2, h3, h4⟩ := h
  unfold Date.stepMonth Date.Loose
  split
  · dsimp only
    have q1 := min_le_left d.day (daysInMonth d.year (d.month + 1))
    have q2 := le_min h3 (daysInMonth_pos d.year (d.month + 1))
    omega
  · dsimp only
    have q1 := min_le_left d.day (daysInMonth (d.year + 1) 1)
    have q2 := le_min h3 (daysInMonth_pos (d.year + 1) 1)
    omega

theorem Date.monthKey_stepMonth {d : Date} (h : d.Loose) :
    d.monthKey + 1 ≤ d.stepMonth.monthKey := by
  obtain ⟨h1, h2, h3, h4⟩ := h
  unfold Date.stepMonth Date.monthKey
  split <;> (dsimp only; omega)

theorem Date.monthKey_le_of_le {a b : Date} (ha : a.Loose) (h : a ≤ b) :
    a.monthKey ≤ b.monthKey := by
  obtain ⟨h1, h2, h3, h4⟩ := ha
  rw [Date.le_def] at h
  unfold Date.monthKey
  omega

/-- Add `n` calendar months at once, clamping the day: the `dt2 + months`
step inside dateutil's `relativedelta(today, start)` normalisation. -/
def Date.addMonthsClamp (d : Date) (n : Nat) : Date :=
  ⟨(d.year * 12 + (d.month - 1) + n) / 12,
   (d.year * 12 + (d.month - 1) + n) % 12 + 1,
   min d.day (daysInMonth ((d.year * 12 + (d.month - 1) + n) / 12)
                          ((d.year * 12 + (d.month - 1) + n) % 12 + 1))⟩

/-- Models `diff.years * 12 + diff.months` for
`diff = relativedelta(today, start_date)`: the count of whole calendar
months from `start` to `today` (dateutil computes the raw month-index
difference, then decrements once when the clamped landing date overshoots
`today`).  This models the `start ≤ today` regime, the only one the caller
exercises since `start` is the earliest order date. -/
def monthsBetween (start today : Date) : Int :=
  if start.addMonthsClamp ((today.year * 12 + today.month) - (start.year * 12 + start.month)) ≤ today
  then (((today.year * 12 + today.month) - (start.year * 12 + start.month) : Nat) : Int)
  else (((today.year * 12 + today.month) - (start.year * 12 + start.month) : Nat) : Int) - 1

theorem Date.addMonthsClamp_zero_le (d : Date) (hd : d.Loose) : d.addMonthsClamp 0 ≤ d := by
  obtain ⟨h1, h2, h3, h4⟩ := hd
  unfold Date.addMonthsClamp
  rw [Date.le_def]
  dsimp only
  have hmin := min_le_left d.day
    (daysInMonth ((d.year * 12 + (d.month - 1) + 0) / 12) ((d.year * 12 + (d.month - 1) + 0) % 12 + 1))
  omega

theorem monthsBetween_nonneg {start today : Date} (hs : start.Loose)
    (h : start ≤ today) : 0 ≤ monthsBetween start today := by
  unfold monthsBetween
  split
  · omega
  · rename_i hlt
    by_cases hb : (today.year * 12 + today.month) - (start.year * 12 + start.month) = 0
    · exact absurd (hb ▸ Date.le_trans (Date.addMonthsClamp_zero_le start hs) h) hlt
    · omega

/-! Python dict with string keys, in insertion order, modelled as an
association list with unique keys: lookup returns the first match, update
replaces the first matching entry in place or appends a fresh one. -/

/-- Dict lookup: `m.get(k)` / `m[k]`. -/
def alGet? {β : Type} (l : List (String × β)) (k : String) : Option β :=
  match l with
  | [] => none
  | (k', v) :: t => if k' = k then some v else alGet? t k

/-- Dict update: `m[k] = v`. -/
def alSet {β : Type} (l : List (String × β)) (k : String) (v : β) : List (String × β) :=
  match l with
  | [] => [(k, v)]
  | (k', v') :: t => if k' = k then (k, v) :: t else (k', v') :: alSet t k v

theorem alGet?_alSet_self {β : Type} (l : List (String × β)) (k : String) (v : β) :
    alGet? (alSet l k v) k = some v := by
  induction l with
  | nil => simp [alSet, alGet?]
  | cons h t ih =>
    obtain ⟨k', v'⟩ := h
    unfold alSet
    split
    · simp [alGet?]
    · rename_i hne
      simp only [alGet?, hne, if_neg]
      exact ih

theorem alGet?_alSet_ne {β : Type} (l : List (String × β)) (k k' : String) (v : β)
    (h : k' ≠ k) : alGet? (alSet l k v) k' = alGet? l k' := by
  induction l with
  | nil =>
    simp only [alSet, alGet?]
    rw [if_neg (fun hh : k = k' => h hh.symm)]
  | cons hd t ih =>
    obtain ⟨k0, v0⟩ := hd
    unfold alSet
    split
    · rename_i he
      simp only [alGet?]
      rw [if_neg (fun hh => h hh.symm), if_neg (he ▸ fun hh => h hh.symm)]
    · simp only [alGet?]
      split
      · rfl
      · exact ih

/-- Microsecond-resolution timestamp (a parsed Python `datetime`): calendar
date plus time of day in microseconds.  Ordered lexicographically, as
`datetime` comparison is. -/
structure DT where
  date : Date
  usec : Nat
deriving DecidableEq, Repr

/-- Lexicographic `datetime` order. -/
def DT.le (a b : DT) : Prop :=
  (a.date = b.date ∧ a.usec ≤ b.usec) ∨ (a.date ≤ b.date ∧ a.date ≠ b.date)

instance (a b : DT) : Decidable (DT.le a b) :=
  inferInstanceAs (Decidable (_ ∨ _))

/-- Binary minimum keeping the left argument on ties, so that a left fold
agrees with Python `min` over a list. -/
def DT.minD (a b : DT) : DT := if DT.le a b then a else b

/-- Python `min` over a nonempty list (`min(dates)`); the default is
returned only for `[]`, which the callers never pass. -/
def minDTList (dflt : DT) (l : List DT) : DT :=
  match l with
  | [] => dflt
  | x :: xs => xs.foldl DT.minD x

/-- Outcome classes of a filled order's `last_transaction_at` string under
the two fixed `strptime` formats the source tries.  The two formats are
mutually exclusive (after the seconds the first demands a literal `Z`, the
second a literal `.`), so a timestamp parses under exactly one of them or
under neither; a timestamp value is modelled by its class, carrying the
parsed datetime when there is one. -/
inductive Timestamp where
  | plain (dt : DT)
  | withFrac (dt : DT)
  | malformed
deriving DecidableEq, Repr

/-- Models `datetime.strptime(s, "%Y-%m-%dT%H:%M:%SZ")`, `none` for a raised
`ValueError`. -/
def strptimeZ : Timestamp → Option DT
  | .plain dt => some dt
  | _ => none

/-- Models `datetime.strptime(s, "%Y-%m-%dT%H:%M:%S.%fZ")`, `none` for a
raised `ValueError`. -/
def strptimeFracZ : Timestamp → Option DT
  | .withFrac dt => some dt
  | _ => none

/-- Exceptions that escape `process_orders_optimized`. -/
inductive PyExn where
  | instrumentLookupFailed
  | timestampParseFailed
deriving DecidableEq, Repr

/-- One fill record of an order (`order['executions'][i]`): the date part of
its timestamp (`timestamp[:timestamp.find("T")]`) and the parsed
`rounded_notional`. -/
structure ExecRec where
  date : Date
  roundedNotional : ℚ
deriving DecidableEq, Repr

/-- One raw order record, with the fields `process_orders_optimized` reads. -/
structure OrderRec where
  instrument : String
  state : String
  side : String
  executions : List ExecRec
  lastTransactionAt : Timestamp
deriving DecidableEq, Repr

/-- Models `get_instrument_symbol`: consult the instrument cache; on a miss
fetch (`rh.stocks.get_instrument_by_url`, an external call modelled by
`fetch`, `none` for a raised exception) and cache the result.  A raised
exception propagates to the caller. -/
def getInstrumentSymbol (fetch : String → Option String)
    (cache : List (String × String)) (url : String) :
    Except PyExn (String × List (String × String)) :=
  match alGet? cache url with
  | some s => .ok (s, cache)
  | none =>
    match fetch url with
    | some s => .ok (s, alSet cache url s)
    | none => .error .instrumentLookupFailed

/-- Models `prefetch_instruments`: fetch every not-yet-cached url and insert
each fetched symbol that is truthy (non-`None`, non-empty).  The concurrent
`as_completed` collection inserts distinct keys, so the resulting cache does
not depend on completion order; the fold models it in list order. -/
def prefetchInstruments (fetch : String → Option String)
    (cache : List (String × String)) (urls : List String) :
    List (String × String) :=
  let toFetch := urls.filter (fun u => (alGet? cache u).isNone)
  toFetch.foldl
    (fun c u =>
      match fetch u with
      | some s => if s ≠ "" then alSet c u s else c
      | none => c)
    cache

/-- Accumulator state of the single pass of `process_orders_optimized`:
the instrument cache plus the three structures the pass builds
(`individual_orders` as parallel date/amount lists per symbol,
`stock_dates`, `all_dates`). -/
structure POState where
  cache : List (String × String)
  iorders : List (String × (List Date × List ℚ))
  stockDates : List (String × List DT)
  allDates : List DT
deriving DecidableEq, Repr

/-- Models the try/except pair on `order["last_transaction_at"]`: the
no-fraction format is tried first, the fractional-seconds format is the
fallback, and a failure of the fallback propagates (the second `strptime`
is not wrapped in any try/except). -/
def parseLastTransaction (ts : Timestamp) : Except PyExn DT :=
  match strptimeZ ts with
  | some dt => .ok dt
  | none =>
    match strptimeFracZ ts with
    | some dt => .ok dt
    | none => .error .timestampParseFailed

/-- One iteration of the order loop of `process_orders_optimized`. -/
def processOrder (fetch : String → Option String) (st : POState) (o : OrderRec) :
    Except PyExn POState :=
  match getInstrumentSymbol fetch st.cache o.instrument with
  | .error e => .error e
  | .ok (symbol, cache') =>
    let io1 := if (alGet? st.iorders symbol).isSome then st.iorders
               else alSet st.iorders symbol ([], [])
    if o.state = "filled" then
      let cur := (alGet? io1 symbol).getD ([], [])
      let io2 := alSet io1 symbol
        (cur.1 ++ o.executions.map (fun e => e.date),
         cur.2 ++ o.executions.map
           (fun e => e.roundedNotional * (if o.side = "buy" then -1 else 1)))
      match parseLastTransaction o.lastTransactionAt with
      | .error e => .error e
      | .ok dt =>
        .ok { cache := cache', iorders := io2,
              stockDates := alSet st.stockDates symbol
                ((alGet? st.stockDates symbol).getD [] ++ [dt]),
              allDates := st.allDates ++ [dt] }
    else
      .ok { st with cache := cache', iorders := io1 }

/-- The order loop of `process_orders_optimized`; the first uncaught
exception aborts the whole pass. -/
def processOrdersGo (fetch : String → Option String) (st : POState) :
    List OrderRec → Except PyExn POState
  | [] => .ok st
  | o :: os =>
    match processOrder fetch st o with
    | .error e => .error e
    | .ok st' => processOrdersGo fetch st' os

/-- Models `process_orders_optimized(orders)`: yields `individual_orders`,
the per-symbol earliest order datetime (from which the human-readable
`stock_ages` strings are formatted; the formatting itself is display-only
and not modelled), and the global earliest order datetime (`today` when no
filled order exists).  `orders` is the already-reversed (chronological)
order list. -/
def processOrdersOptimized (fetch : String → Option String)
    (cache : List (String × String)) (today : DT) (orders : List OrderRec) :
    Except PyExn (List (String × (List Date × List ℚ)) × List (String × DT) × DT) :=
  match processOrdersGo fetch { cache := cache, iorders := [], stockDates := [], allDates := [] } orders with
  | .error e => .error e
  | .ok st =>
    .ok (st.iorders,
         st.stockDates.map (fun kv => (kv.1, minDTList today kv.2)),
         minDTList today st.allDates)

/-- One row of `stocks_data`, restricted to the two fields
`calculate_xirr_investments` reads: `item['Symbol']` and
`item['Current Value']`. -/
structure StockItem where
  symbol : String
  currentValue : ℚ
deriving DecidableEq, Repr

/-- Models `calculate_xirr_investments(stocks_data, individual_orders)`.
The `xirr` root finder from `pyxirr` is the explicit parameter `solver`;
`none` models both a raised exception and a `None` return (on which the
source's `float(...)` raises), and the try/except around each solve is the
`Option.getD 0`.  The source builds `xirr_values` and `investments` in one
loop over `stocks_data`; the two maps below are that loop split
componentwise.  Returns `(overall_xirr, xirr_values, investments)`. -/
def calcXirrInvestments (solver : List Date → List ℚ → Option ℚ) (today : Date)
    (stocks : List StockItem) (iorders : List (String × (List Date × List ℚ))) :
    ℚ × List ℚ × List ℚ :=
  let xirrValues := stocks.map (fun it =>
    let so := (alGet? iorders it.symbol).getD ([], [])
    (solver (so.1 ++ [today]) (so.2 ++ [it.currentValue])).getD 0)
  let investments := stocks.map (fun it =>
    -1 * ((alGet? iorders it.symbol).getD ([], [])).2.sum)
  let allDates := iorders.foldl (fun acc kv => acc ++ kv.2.1) []
  let allAmounts := iorders.foldl (fun acc kv => acc ++ kv.2.2) []
  let overallXirr := (solver (allDates ++ [today])
    (allAmounts ++ [(stocks.map (fun s => s.currentValue)).sum])).getD 0
  (overallXirr, xirrValues, investments)

/-- C1: for every symbol `s` (each row of `stocks_data`), the per-symbol
investment reported by `calculate_xirr_investments` equals the negated sum
of that symbol's aggregated cash-flow amounts — `investment[s] ==
-sum(flows[s])` with `flows[s]` the amount list looked up in
`individual_orders` as built by `process_orders_optimized` — and a symbol
with no recorded flows gets the empty list, hence investment `0`. -/
theorem calcXirrInvestments_investment_eq_neg_sum
    (solver : List Date → List ℚ → Option ℚ) (today : Date)
    (stocks : List StockItem) (iorders : List (String × (List Date × List ℚ)))
    (i : Nat) (h : i < stocks.length) :
    (calcXirrInvestments solver today stocks iorders).2.2[i]? =
      some (-1 * ((alGet? iorders stocks[i].symbol).getD ([], [])).2.sum)
    ∧ (alGet? iorders stocks[i].symbol = none →
       (calcXirrInvestments solver today stocks iorders).2.2[i]? = some 0) := by
  constructor
  · simp [calcXirrInvestments, List.getElem?_map, List.getElem?_eq_getElem h]
  · intro hnone
    simp [calcXirrInvestments, List.getElem?_map, List.getElem?_eq_getElem h, hnone]

/-- Witness for C1 at a concrete input: one holding with a single buy of 10,
whose reported investment is 10. -/
theorem calcXirrInvestments_investment_eq_neg_sum_witness :
    0 < [StockItem.mk "A" 5].length ∧
    ((calcXirrInvestments (fun _ _ => none) ⟨2024, 5, 1⟩ [StockItem.mk "A" 5]
        [("A", ([⟨2024, 1, 2⟩], [-10]))]).2.2[0]? =
      some (-1 * ((alGet? [("A", ([(⟨2024, 1, 2⟩ : Date)], [(-10 : ℚ)]))]
        ([StockItem.mk "A" 5][0].symbol)).getD ([], [])).2.sum)
    ∧ (alGet? [("A", ([(⟨2024, 1, 2⟩ : Date)], [(-10 : ℚ)]))] ([StockItem.mk "A" 5][0].symbol) = none →
       (calcXirrInvestments (fun _ _ => none) ⟨2024, 5, 1⟩ [StockItem.mk "A" 5]
        [("A", ([⟨2024, 1, 2⟩], [-10]))]).2.2[0]? = some 0)) :=
  ⟨by decide,
   calcXirrInvestments_investment_eq_neg_sum (fun _ _ => none) ⟨2024, 5, 1⟩
     [StockItem.mk "A" 5] [("A", ([⟨2024, 1, 2⟩], [-10]))] 0 (by decide)⟩

/-- C2: every XIRR solve is guarded independently.  Whenever the solve for
one holding's cash-flow series with its synthetic terminal value fails
(raises or returns no root, modelled by `solver` yielding `none`) —
including the degenerate single-point series of a symbol with no flows —
`calculate_xirr_investments` reports exactly `0` for that holding's rate,
regardless of what the other solves do; and independently, whenever the
aggregate solve fails (even with no holdings at all) the overall rate is
exactly `0`.  Each failure is absorbed locally and never propagated, so a
single broken holding's solve never aborts the report. -/
theorem calcXirrInvestments_failed_solve_defaults_zero
    (solver : List Date → List ℚ → Option ℚ) (today : Date)
    (stocks : List StockItem) (iorders : List (String × (List Date × List ℚ))) :
    (∀ (i : Nat) (h : i < stocks.length),
      solver (((alGet? iorders stocks[i].symbol).getD ([], [])).1 ++ [today])
        (((alGet? iorders stocks[i].symbol).getD ([], [])).2 ++ [stocks[i].currentValue]) = none →
      (calcXirrInvestments solver today stocks iorders).2.1[i]? = some 0) ∧
    (solver ((iorders.foldl (fun acc kv => acc ++ kv.2.1) []) ++ [today])
        ((iorders.foldl (fun acc kv => acc ++ kv.2.2) []) ++
          [(stocks.map (fun s => s.currentValue)).sum]) = none →
      (calcXirrInvestments solver today stocks iorders).1 = 0) := by
  constructor
  · intro i h hfail
    simp [calcXirrInvestments, List.getElem?_map, List.getElem?_eq_getElem h, hfail]
  · intro hfailAll
    simp [calcXirrInvestments, hfailAll]

/-- Witness for C2 at concrete inputs exercising both conjuncts
independently: under a solver that fails exactly on single-point series,
the flow-less holding "B" gets rate `0` while the aggregate series (two
points) converges; and separately, with no holdings at all a failing
aggregate solve yields overall rate `0`. -/
theorem calcXirrInvestments_failed_solve_defaults_zero_witness :
    1 < [StockItem.mk "A" 5, StockItem.mk "B" 3].length ∧
    (calcXirrInvestments (fun d _ => if d.length ≤ 1 then none else some 1)
      ⟨2024, 5, 1⟩ [StockItem.mk "A" 5, StockItem.mk "B" 3]
      [("A", ([⟨2024, 1, 2⟩], [-10]))]).2.1[1]? = some 0 ∧
    (calcXirrInvestments (fun d _ => if d.length ≤ 1 then none else some 1)
      ⟨2024, 5, 1⟩ [StockItem.mk "A" 5, StockItem.mk "B" 3]
      [("A", ([⟨2024, 1, 2⟩], [-10]))]).1 = 1 ∧
    (calcXirrInvestments (fun _ _ => none) ⟨2024, 5, 1⟩ [] []).1 = 0 :=
  ⟨by decide,
   (calcXirrInvestments_failed_solve_defaults_zero
     (fun d _ => if d.length ≤ 1 then none else some 1) ⟨2024, 5, 1⟩
     [StockItem.mk "A" 5, StockItem.mk "B" 3]
     [("A", ([⟨2024, 1, 2⟩], [-10]))]).1 1 (by decide) (by decide),
   by decide,
   (calcXirrInvestments_failed_solve_defaults_zero (fun _ _ => none)
     ⟨2024, 5, 1⟩ [] []).2 rfl⟩

/-- Accumulator of the SIP (dollar-cost-averaging) simulation loop of
`calculate_sp500_comparison_optimized`: the synthetic cash-flow lists
`sip_dates` / `sip_amounts` and the running `shares_owned` /
`total_invested`. -/
structure SipState where
  dates : List Date
  amounts : List ℚ
  shares : ℚ
  invested : ℚ
deriving DecidableEq, Repr

/-- The `while current_date <= today` loop of
`calculate_sp500_comparison_optimized`: at each step find the first
benchmark row dated on or after the step date; if found, buy
`monthly_sip / price` shares and record the `-monthly_sip` outflow; then
advance by one calendar month. -/
def sipLoop (today : Date) (hist : List (Date × ℚ)) (msip : ℚ)
    (cur : Date) (hv : cur.Loose) (st : SipState) : SipState :=
  if h : cur ≤ today then
    sipLoop today hist msip cur.stepMonth (Date.loose_stepMonth hv)
      (match hist.find? (fun p => decide (cur ≤ p.1)) with
       | some p =>
         { dates := st.dates ++ [cur], amounts := st.amounts ++ [-msip],
           shares := st.shares + msip / p.2, invested := st.invested + msip }
       | none => st)
  else st
termination_by today.monthKey + 1 - cur.monthKey
decreasing_by
  have k1 := Date.monthKey_stepMonth hv
  have k2 := Date.monthKey_le_of_le hv h
  omega

/-- The list of step dates the SIP loop visits: `start`, `start` plus one
calendar month, and so on, while the step date is at most `today`. -/
def sipSteps (today : Date) (cur : Date) (hv : cur.Loose) : List Date :=
  if h : cur ≤ today then cur :: sipSteps today cur.stepMonth (Date.loose_stepMonth hv)
  else []
termination_by today.monthKey + 1 - cur.monthKey
decreasing_by
  have k1 := Date.monthKey_stepMonth hv
  have k2 := Date.monthKey_le_of_le hv h
  omega

/-- The benchmark comparison row assembled by
`calculate_sp500_comparison_optimized` (the display-only `timeHeld` string
is not modelled). -/
structure SpRow where
  name : String
  symbol : String
  quantity : ℚ
  avgCost : ℚ
  currentPrice : ℚ
  investment : ℚ
  currentValue : ℚ
  profitLoss : ℚ
  xirr : ℚ
deriving DecidableEq, Repr

/-- Models `calculate_sp500_comparison_optimized(start_date,
total_investment, hist)`.  `hist` is the pre-fetched benchmark price
history as ordered (date, close) rows; `hist[hist.index >= date].iloc[0]`
is `List.find?` on the row order. -/
def calcSp500ComparisonOptimized (solver : List Date → List ℚ → Option ℚ)
    (today : Date) (start : Date) (hs : start.Loose) (total : ℚ)
    (hist : List (Date × ℚ)) : Option SpRow :=
  if total ≤ 0 ∨ hist = [] then none
  else
    let mb := monthsBetween start today
    let totalMonths : Int := if mb = 0 then 1 else mb
    let msip := total / (totalMonths : ℚ)
    let st := sipLoop today hist msip start hs ⟨[], [], 0, 0⟩
    let currentPrice := (hist.getLastD (⟨0, 0, 0⟩, 0)).2
    let currentValue := st.shares * currentPrice
    let spXirr := (solver (st.dates ++ [today]) (st.amounts ++ [currentValue])).getD 0
    some { name := "S&P 500 Index", symbol := "^GSPC", quantity := st.shares,
           avgCost := if 0 < st.shares then st.invested / st.shares else 0,
           currentPrice := currentPrice, investment := st.invested,
           currentValue := currentValue, profitLoss := currentValue - st.invested,
           xirr := spXirr }

/-- C3: `calculate_sp500_comparison_optimized` yields the null result
(`None`) exactly when the total investment is zero or negative or the
benchmark price history is empty; on every other input it yields a
populated comparison row, never an error. -/
theorem calcSp500ComparisonOptimized_none_iff
    (solver : List Date → List ℚ → Option ℚ) (today start : Date)
    (hs : start.Loose) (total : ℚ) (hist : List (Date × ℚ)) :
    calcSp500ComparisonOptimized solver today start hs total hist = none ↔
      (total ≤ 0 ∨ hist = []) := by
  unfold calcSp500ComparisonOptimized
  split
  · rename_i hc
    simp [hc]
  · rename_i hc
    simp [hc]

/-- Witness for C3 at concrete inputs: a zero total investment yields the
null result. -/
theorem calcSp500ComparisonOptimized_none_iff_witness :
    Date.Loose ⟨2024, 1, 1⟩ ∧
    (calcSp500ComparisonOptimized (fun _ _ => none) ⟨2024, 2, 1⟩ ⟨2024, 1, 1⟩
        (by decide) 0 [(⟨2024, 1, 5⟩, 10)] = none ↔
      ((0 : ℚ) ≤ 0 ∨ [((⟨2024, 1, 5⟩ : Date), (10 : ℚ))] = [])) :=
  ⟨by decide,
   calcSp500ComparisonOptimized_none_iff (fun _ _ => none) ⟨2024, 2, 1⟩ ⟨2024, 1, 1⟩
     (by decide) 0 [(⟨2024, 1, 5⟩, 10)]⟩

theorem sipLoop_characterization (today : Date) (hist : List (Date × ℚ)) (msip : ℚ)
    (cur : Date) (hv : cur.Loose) (st : SipState) :
    sipLoop today hist msip cur hv st =
      { dates := st.dates ++ (sipSteps today cur hv).filter
          (fun d => (hist.find? (fun p => decide (d ≤ p.1))).isSome),
        amounts := st.amounts ++ ((sipSteps today cur hv).filter
          (fun d => (hist.find? (fun p => decide (d ≤ p.1))).isSome)).map (fun _ => -msip),
        shares := st.shares + (((sipSteps today cur hv).filterMap
          (fun d => (hist.find? (fun p => decide (d ≤ p.1))).map Prod.snd)).map
            (fun pr => msip / pr)).sum,
        invested := st.invested + msip * (((sipSteps today cur hv).filter
          (fun d => (hist.find? (fun p => decide (d ≤ p.1))).isSome)).length : ℚ) } := by
  induction cur, hv, st using sipLoop.induct today hist msip with
  | case1 cur hv st h ih =>
    rw [sipLoop, sipSteps]
    rw [dif_pos h, dif_pos h]
    cases hfind : hist.find? (fun p => decide (cur ≤ p.1)) with
    | some p =>
      simp only [hfind] at ih ⊢
      rw [ih]
      simp [List.filter_cons, List.filterMap_cons, hfind, mul_add]
      constructor
      · ring
      · ring
    | none =>
      simp only [hfind] at ih ⊢
      rw [ih]
      simp [List.filter_cons, List.filterMap_cons, hfind]
  | case2 cur hv st h =>
    rw [sipLoop, sipSteps]
    rw [dif_neg h, dif_neg h]
    simp

/-- C4: on any run that actually simulates (positive total investment,
nonempty benchmark history, start not after today), the benchmark
comparison uses the constant monthly contribution
`total / max 1 (whole months from start to today)`, visits exactly the
one-calendar-month step dates up to today, buys `contribution / price`
shares at each step having a benchmark price on or after it while
recording a `-contribution` outflow, and values the result at accumulated
shares times the last available benchmark close (also the terminal inflow
handed to the XIRR solve). -/
theorem calcSp500ComparisonOptimized_sip_spec
    (solver : List Date → List ℚ → Option ℚ) (today start : Date)
    (hs : start.Loose) (total : ℚ) (hist : List (Date × ℚ))
    (hle : start ≤ today) (htotal : 0 < total) (hhist : hist ≠ []) :
    ∃ r, calcSp500ComparisonOptimized solver today start hs total hist = some r ∧
      r.investment = (total / ((max 1 (monthsBetween start today) : Int) : ℚ)) *
        (((sipSteps today start hs).filter
          (fun d => (hist.find? (fun p => decide (d ≤ p.1))).isSome)).length : ℚ) ∧
      r.quantity = (((sipSteps today start hs).filterMap
          (fun d => (hist.find? (fun p => decide (d ≤ p.1))).map Prod.snd)).map
            (fun pr => (total / ((max 1 (monthsBetween start today) : Int) : ℚ)) / pr)).sum ∧
      r.currentValue = r.quantity * (hist.getLastD (⟨0, 0, 0⟩, 0)).2 ∧
      r.xirr = (solver
          (((sipSteps today start hs).filter
            (fun d => (hist.find? (fun p => decide (d ≤ p.1))).isSome)) ++ [today])
          ((((sipSteps today start hs).filter
            (fun d => (hist.find? (fun p => decide (d ≤ p.1))).isSome)).map
              (fun _ => -(total / ((max 1 (monthsBetween start today) : Int) : ℚ)))) ++
            [r.quantity * (hist.getLastD (⟨0, 0, 0⟩, 0)).2])).getD 0 := by
  have hmb := monthsBetween_nonneg hs hle
  have hms : (if monthsBetween start today = 0 then (1 : Int) else monthsBetween start today) =
      max 1 (monthsBetween start today) := by
    split <;> omega
  have hguard : ¬(total ≤ 0 ∨ hist = []) := not_or.mpr ⟨not_le.mpr htotal, hhist⟩
  unfold calcSp500ComparisonOptimized
  rw [if_neg hguard]
  dsimp only
  rw [hms, sipLoop_characterization]
  dsimp only
  refine ⟨_, rfl, ?_, ?_, ?_, ?_⟩ <;> simp

/-- Witness for C4 at concrete inputs: a two-row benchmark history and a
ten-week holding period. -/
theorem calcSp500ComparisonOptimized_sip_spec_witness :
    Date.Loose ⟨2024, 1, 1⟩ ∧ (⟨2024, 1, 1⟩ : Date) ≤ ⟨2024, 3, 15⟩ ∧ (0 : ℚ) < 100 ∧
    ([((⟨2024, 1, 5⟩ : Date), (10 : ℚ)), (⟨2024, 3, 1⟩, 20)] ≠ []) ∧
    (∃ r, calcSp500ComparisonOptimized (fun _ _ => none) ⟨2024, 3, 15⟩ ⟨2024, 1, 1⟩
        (by decide) 100 [(⟨2024, 1, 5⟩, 10), (⟨2024, 3, 1⟩, 20)] = some r ∧
      r.investment = ((100 : ℚ) / ((max 1 (monthsBetween ⟨2024, 1, 1⟩ ⟨2024, 3, 15⟩) : Int) : ℚ)) *
        (((sipSteps ⟨2024, 3, 15⟩ ⟨2024, 1, 1⟩ (by decide)).filter
          (fun d => (List.find? (fun p => decide (d ≤ p.1)) [(⟨2024, 1, 5⟩, (10 : ℚ)), (⟨2024, 3, 1⟩, 20)]).isSome)).length : ℚ) ∧
      r.quantity = (((sipSteps ⟨2024, 3, 15⟩ ⟨2024, 1, 1⟩ (by decide)).filterMap
          (fun d => (List.find? (fun p => decide (d ≤ p.1)) [(⟨2024, 1, 5⟩, (10 : ℚ)), (⟨2024, 3, 1⟩, 20)]).map Prod.snd)).map
            (fun pr => ((100 : ℚ) / ((max 1 (monthsBetween ⟨2024, 1, 1⟩ ⟨2024, 3, 15⟩) : Int) : ℚ)) / pr)).sum ∧
      r.currentValue = r.quantity * (List.getLastD ([(⟨2024, 1, 5⟩, (10 : ℚ)), (⟨2024, 3, 1⟩, 20)] : List (Date × ℚ)) ((⟨0, 0, 0⟩ : Date), 0)).2 ∧
      r.xirr = ((fun (_ : List Date) (_ : List ℚ) => (none : Option ℚ))
          (((sipSteps ⟨2024, 3, 15⟩ ⟨2024, 1, 1⟩ (by decide)).filter
            (fun d => (List.find? (fun p => decide (d ≤ p.1)) [(⟨2024, 1, 5⟩, (10 : ℚ)), (⟨2024, 3, 1⟩, 20)]).isSome)) ++ [⟨2024, 3, 15⟩])
          ((((sipSteps ⟨2024, 3, 15⟩ ⟨2024, 1, 1⟩ (by decide)).filter
            (fun d => (List.find? (fun p => decide (d ≤ p.1)) [(⟨2024, 1, 5⟩, (10 : ℚ)), (⟨2024, 3, 1⟩, 20)]).isSome)).map
              (fun _ => -((100 : ℚ) / ((max 1 (monthsBetween ⟨2024, 1, 1⟩ ⟨2024, 3, 15⟩) : Int) : ℚ)))) ++
            [r.quantity * (List.getLastD ([(⟨2024, 1, 5⟩, (10 : ℚ)), (⟨2024, 3, 1⟩, 20)] : List (Date × ℚ)) ((⟨0, 0, 0⟩ : Date), 0)).2])).getD 0) :=
  ⟨by decide, by decide, by decide, by decide,
   calcSp500ComparisonOptimized_sip_spec (fun _ _ => none) ⟨2024, 3, 15⟩ ⟨2024, 1, 1⟩
     (by decide) 100 [(⟨2024, 1, 5⟩, 10), (⟨2024, 3, 1⟩, 20)] (by decide) (by decide) (by decide)⟩

/-- One emitted chart sample of `get_historical_performance_optimized`.
The sample date is kept as a `Date` (the source renders it with
`'%b %d, %Y'`, an injective display formatting). -/
structure Sample where
  date : Date
  portfolio : ℚ
  sp500 : ℚ
  portfolioInvestment : ℚ
  sp500Investment : ℚ
deriving DecidableEq, Repr

/-- Running state of the weekly reconstruction walk: `cumulative_investment`,
`sp500_shares`, `sp500_investment` and the `processed_transaction_dates`
seen-set (a Python `set` used only through membership, modelled as the list
of inserted dates). -/
structure WState where
  cum : ℚ
  shares : ℚ
  spInv : ℚ
  seen : List Date
deriving DecidableEq, Repr

/-- One transaction considered by the inner loop of the weekly walk: if its
date is at most the cursor date and not yet in the seen-set, add the
absolute amount to cumulative investment, mark the date seen, and buy
benchmark shares at the first benchmark price dated on or after the
transaction date (if any). -/
def applyTxStep (hist : List (Date × ℚ)) (cutoff : Date) (st : WState)
    (t : Date × ℚ) : WState :=
  if t.1 ≤ cutoff ∧ t.1 ∉ st.seen then
    let st1 : WState := { st with cum := st.cum + |t.2|, seen := t.1 :: st.seen }
    match hist.find? (fun p => decide (t.1 ≤ p.1)) with
    | some p => { st1 with shares := st1.shares + |t.2| / p.2, spInv := st1.spInv + |t.2| }
    | none => st1
  else st

/-- The full pass over the (date-sorted) transaction list done at each
weekly cursor position. -/
def applyTxs (hist : List (Date × ℚ)) (cutoff : Date) (st : WState)
    (txs : List (Date × ℚ)) : WState :=
  txs.foldl (applyTxStep hist cutoff) st

/-- The `while current_date <= today` weekly sampling loop of
`get_historical_performance_optimized`: apply pending transactions, then
emit a sample at the cursor date when a benchmark price on or after it
exists and cumulative investment is positive, then advance seven days. -/
def walkLoop (today : Date) (hist : List (Date × ℚ)) (txs : List (Date × ℚ))
    (cur : Date) (hv : cur.Loose) (st : WState) : List Sample :=
  if h : cur ≤ today then
    let st' := applyTxs hist cur st txs
    (match hist.find? (fun p => decide (cur ≤ p.1)) with
     | some p =>
       if 0 < st'.cum then
         [{ date := cur, portfolio := st'.cum, sp500 := st'.shares * p.2,
            portfolioInvestment := st'.cum, sp500Investment := st'.spInv }]
       else []
     | none => []) ++ walkLoop today hist txs (cur.addDays 7) (Date.loose_addDays hv 7) st'
  else []
termination_by today.dayKey + 1 - cur.dayKey
decreasing_by
  have k1 := Date.dayKey_addDays hv 7
  have k2 := Date.dayKey_le_of_le hv h
  omega

/-- Stable insertion of a transaction into a date-sorted list, after every
entry with an earlier-or-equal date. -/
def insertByDate (x : Date × ℚ) : List (Date × ℚ) → List (Date × ℚ)
  | [] => [x]
  | y :: ys => if y.1 ≤ x.1 then y :: insertByDate x ys else x :: y :: ys

/-- Models `sorted(zip(all_dates, all_amounts), key=lambda x: x[0])`: the
stable date-keyed sort (a stable sort is the unique key-sorted permutation
preserving the relative order of equal keys, so insertion placing each
element after existing equal keys reproduces it). -/
def sortByDate (l : List (Date × ℚ)) : List (Date × ℚ) :=
  l.foldl (fun acc x => insertByDate x acc) []

/-- Models `get_historical_performance_optimized(individual_orders,
start_date, sp500_hist)`.  The `portfolio_cash_flows` dict the source also
builds is written but never read, and is omitted.  The benchmark history
rows are the parallel `sp500_index_strings` / `sp500_prices` lists. -/
def getHistoricalPerformanceOptimized (today : Date)
    (iorders : List (String × (List Date × List ℚ))) (start : Date)
    (hs : start.Loose) (hist : List (Date × ℚ)) : List Sample :=
  if hist = [] then []
  else
    let allD := iorders.foldl (fun acc kv => acc ++ kv.2.1) []
    let allA := iorders.foldl (fun acc kv => acc ++ kv.2.2) []
    walkLoop today hist (sortByDate (allD.zip allA)) start hs ⟨0, 0, 0, []⟩

/-- Keep only the first transaction carrying each date not already in
`seen`, dropping every later transaction that shares a date with an earlier
one — the collapsing a date-keyed seen-set induces. -/
def keepFirstByDate (seen : List Date) : List (Date × ℚ) → List (Date × ℚ)
  | [] => []
  | t :: ts =>
    if t.1 ∈ seen then keepFirstByDate seen ts
    else t :: keepFirstByDate (t.1 :: seen) ts

/-- Modelled from the spec: the reconstruction walk run on the transaction
stream collapsed to the first transaction of each calendar date (in
date-sorted order), the behaviour the spec ascribes to the date-keyed
seen-set. -/
def getHistoricalPerformanceFirstPerDate (today : Date)
    (iorders : List (String × (List Date × List ℚ))) (start : Date)
    (hs : start.Loose) (hist : List (Date × ℚ)) : List Sample :=
  if hist = [] then []
  else
    let allD := iorders.foldl (fun acc kv => acc ++ kv.2.1) []
    let allA := iorders.foldl (fun acc kv => acc ++ kv.2.2) []
    walkLoop today hist (keepFirstByDate [] (sortByDate (allD.zip allA))) start hs ⟨0, 0, 0, []⟩

theorem applyTxStep_cum (hist : List (Date × ℚ)) (cutoff : Date) (st : WState)
    (t : Date × ℚ) :
    (applyTxStep hist cutoff st t).cum =
      st.cum + (if t.1 ≤ cutoff ∧ t.1 ∉ st.seen then |t.2| else 0) := by
  unfold applyTxStep
  split
  · cases hf : hist.find? (fun p => decide (t.1 ≤ p.1)) <;> simp
  · simp

theorem applyTxStep_seen_subset (hist : List (Date × ℚ)) (cutoff : Date)
    (st : WState) (t : Date × ℚ) :
    st.seen ⊆ (applyTxStep hist cutoff st t).seen := by
  unfold applyTxStep
  split
  · cases hf : hist.find? (fun p => decide (t.1 ≤ p.1)) <;>
      (simp only [hf]; intro d hd; exact List.mem_cons_of_mem _ hd)
  · exact fun d hd => hd

theorem applyTxs_seen_subset (hist : List (Date × ℚ)) (cutoff : Date)
    (txs : List (Date × ℚ)) : ∀ st : WState,
    st.seen ⊆ (applyTxs hist cutoff st txs).seen := by
  induction txs with
  | nil => intro st; exact fun d hd => hd
  | cons t ts ih =>
    intro st
    exact fun d hd =>
      ih (applyTxStep hist cutoff st t) (applyTxStep_seen_subset hist cutoff st t hd)

theorem applyTxStep_cum_le (hist : List (Date × ℚ)) (cutoff : Date) (st : WState)
    (t : Date × ℚ) : st.cum ≤ (applyTxStep hist cutoff st t).cum := by
  rw [applyTxStep_cum]
  split
  · have := abs_nonneg t.2
    linarith
  · simp

theorem applyTxs_cum_le (hist : List (Date × ℚ)) (cutoff : Date)
    (txs : List (Date × ℚ)) : ∀ st : WState,
    st.cum ≤ (applyTxs hist cutoff st txs).cum := by
  induction txs with
  | nil => intro st; exact le_refl _
  | cons t ts ih =>
    intro st
    exact le_trans (applyTxStep_cum_le hist cutoff st t) (ih (applyTxStep hist cutoff st t))

theorem applyTxs_keepFirstByDate (hist : List (Date × ℚ)) (cutoff : Date) :
    ∀ (l : List (Date × ℚ)) (st : WState) (S : List Date),
    (∀ d ∈ S, d ∈ st.seen ∨ ¬ d ≤ cutoff) →
    applyTxs hist cutoff st l = applyTxs hist cutoff st (keepFirstByDate S l) := by
  intro l
  induction l with
  | nil => intro st S hS; rfl
  | cons t ts ih =>
    intro st S hS
    by_cases hm : t.1 ∈ S
    · rw [keepFirstByDate, if_pos hm]
      have hno : ¬(t.1 ≤ cutoff ∧ t.1 ∉ st.seen) := by
        rcases hS t.1 hm with h1 | h1
        · exact fun hc => hc.2 h1
        · exact fun hc => h1 hc.1
      have e1 : applyTxs hist cutoff st (t :: ts) =
          applyTxs hist cutoff (applyTxStep hist cutoff st t) ts := rfl
      have e2 : applyTxStep hist cutoff st t = st := by
        unfold applyTxStep; rw [if_neg hno]
      rw [e1, e2]
      exact ih st S hS
    · rw [keepFirstByDate, if_neg hm]
      have e1 : applyTxs hist cutoff st (t :: ts) =
          applyTxs hist cutoff (applyTxStep hist cutoff st t) ts := rfl
      have e2 : applyTxs hist cutoff st (t :: keepFirstByDate (t.1 :: S) ts) =
          applyTxs hist cutoff (applyTxStep hist cutoff st t) (keepFirstByDate (t.1 :: S) ts) := rfl
      rw [e1, e2]
      apply ih
      intro d hd
      rcases List.mem_cons.mp hd with he | hd'
      · subst he
        by_cases hg : t.1 ≤ cutoff ∧ t.1 ∉ st.seen
        · left
          unfold applyTxStep
          rw [if_pos hg]
          cases hf : hist.find? (fun p => decide (t.1 ≤ p.1)) <;> simp [hf]
        · rw [not_and_or, not_not] at hg
          rcases hg with hg | hg
          · right; exact hg
          · left; exact applyTxStep_seen_subset hist cutoff st t hg
      · rcases hS d hd' with h1 | h1
        · left; exact applyTxStep_seen_subset hist cutoff st t h1
        · right; exact h1

theorem walkLoop_keepFirstByDate (today : Date) (hist txs : List (Date × ℚ)) :
    ∀ (cur : Date) (hv : cur.Loose) (st : WState), ∀ S : List Date,
    (∀ d ∈ S, d ∈ st.seen) →
    walkLoop today hist txs cur hv st =
      walkLoop today hist (keepFirstByDate S txs) cur hv st := by
  intro cur hv st
  induction cur, hv, st using walkLoop.induct today hist txs with
  | case1 cur hv st h st' ih =>
    intro S hS
    rw [walkLoop, walkLoop, dif_pos h, dif_pos h]
    have hst : applyTxs hist cur st (keepFirstByDate S txs) = applyTxs hist cur st txs :=
      (applyTxs_keepFirstByDate hist cur txs st S (fun d hd => Or.inl (hS d hd))).symm
    dsimp only
    rw [hst]
    congr 1
    exact ih S (fun d hd => applyTxs_seen_subset hist cur txs st (hS d hd))
  | case2 cur hv st h =>
    intro S hS
    rw [walkLoop, walkLoop, dif_neg h, dif_neg h]

/-- C5: in the historical reconstruction walk every transaction is applied
at most once, tracked by a seen-set keyed on the transaction date only, so
the walk computes exactly what it would compute on the transaction stream
collapsed to the first transaction of each calendar date (in date-sorted
order): later transactions sharing a date are never applied. -/
theorem getHistoricalPerformanceOptimized_collapses_same_date (today : Date)
    (iorders : List (String × (List Date × List ℚ))) (start : Date)
    (hs : start.Loose) (hist : List (Date × ℚ)) :
    getHistoricalPerformanceOptimized today iorders start hs hist =
      getHistoricalPerformanceFirstPerDate today iorders start hs hist := by
  unfold getHistoricalPerformanceOptimized getHistoricalPerformanceFirstPerDate
  split
  · rfl
  · exact walkLoop_keepFirstByDate today hist _ start hs ⟨0, 0, 0, []⟩ []
      (fun d hd => absurd hd (List.not_mem_nil d))

/-- Witness for C5 at a concrete input containing two distinct same-date
transactions. -/
theorem getHistoricalPerformanceOptimized_collapses_same_date_witness :
    Date.Loose ⟨2024, 1, 1⟩ ∧
    getHistoricalPerformanceOptimized ⟨2024, 1, 20⟩
        [("A", ([⟨2024, 1, 3⟩, ⟨2024, 1, 3⟩], [-10, -20]))] ⟨2024, 1, 1⟩
        (by decide) [(⟨2024, 1, 2⟩, 5)] =
      getHistoricalPerformanceFirstPerDate ⟨2024, 1, 20⟩
        [("A", ([⟨2024, 1, 3⟩, ⟨2024, 1, 3⟩], [-10, -20]))] ⟨2024, 1, 1⟩
        (by decide) [(⟨2024, 1, 2⟩, 5)] :=
  ⟨by decide,
   getHistoricalPerformanceOptimized_collapses_same_date ⟨2024, 1, 20⟩
     [("A", ([⟨2024, 1, 3⟩, ⟨2024, 1, 3⟩], [-10, -20]))] ⟨2024, 1, 1⟩
     (by decide) [(⟨2024, 1, 2⟩, 5)]⟩

/-- Samples starting at cursor `c` and advancing exactly seven days per
emitted sample. -/
def Aligned : Date → List Sample → Prop
  | _, [] => True
  | c, s :: r => s.date = c ∧ Aligned (c.addDays 7) r

theorem Aligned_nil (c : Date) : Aligned c [] := trivial

theorem Aligned_head {c : Date} {L : List Sample} (h : Aligned c L) :
    ∀ y ∈ L.head?, y.date = c := by
  cases L with
  | nil => intro y hy; cases hy
  | cons s r =>
    intro y hy
    obtain ⟨hs, _⟩ := h
    simp only [List.head?_cons, Option.mem_some_iff] at hy
    exact hy ▸ hs

theorem Aligned_chain {L : List Sample} : ∀ {c : Date}, Aligned c L →
    List.Chain' (fun a b => b.date = a.date.addDays 7) L := by
  induction L with
  | nil => intro c _; exact List.chain'_nil
  | cons s r ih =>
    intro c hA
    obtain ⟨hs, hr⟩ := hA
    cases r with
    | nil => simp
    | cons s2 r2 =>
      obtain ⟨hs2, hr2⟩ := hr
      rw [List.chain'_cons]
      exact ⟨by rw [hs2, hs], ih ⟨hs2, hr2⟩⟩

theorem walkLoop_nil_of_no_price (today : Date) (hist txs : List (Date × ℚ)) :
    ∀ (cur : Date) (hv : cur.Loose) (st : WState),
    (∀ p ∈ hist, ¬ cur ≤ p.1) →
    walkLoop today hist txs cur hv st = [] := by
  intro cur hv st
  induction cur, hv, st using walkLoop.induct today hist txs with
  | case1 cur hv st h st' ih =>
    intro hno
    rw [walkLoop, dif_pos h]
    have hfind : hist.find? (fun p => decide (cur ≤ p.1)) = none :=
      List.find?_eq_none.mpr (fun x hx => by simpa using hno x hx)
    dsimp only
    rw [hfind]
    dsimp only
    rw [List.nil_append]
    exact ih (fun p hp hle => hno p hp (Date.le_trans (Date.le_addDays cur 7) hle))
  | case2 cur hv st h =>
    intro _
    rw [walkLoop, dif_neg h]

theorem walkLoop_aligned (today : Date) (hist txs : List (Date × ℚ)) :
    ∀ (cur : Date) (hv : cur.Loose) (st : WState),
    0 < st.cum →
    Aligned cur (walkLoop today hist txs cur hv st) := by
  intro cur hv st
  induction cur, hv, st using walkLoop.induct today hist txs with
  | case1 cur hv st h st' ih =>
    intro hpos
    have hpos' : 0 < (applyTxs hist cur st txs).cum :=
      lt_of_lt_of_le hpos (applyTxs_cum_le hist cur txs st)
    rw [walkLoop, dif_pos h]
    dsimp only
    cases hfind : hist.find? (fun p => decide (cur ≤ p.1)) with
    | some p =>
      dsimp only
      rw [if_pos hpos', List.singleton_append]
      exact ⟨rfl, ih hpos'⟩
    | none =>
      dsimp only
      rw [List.nil_append]
      rw [walkLoop_nil_of_no_price today hist txs _ _ _
        (fun p hp hle => by
          have hcur : cur ≤ p.1 := Date.le_trans (Date.le_addDays cur 7) hle
          have := List.find?_eq_none.mp hfind p hp
          simp only [decide_eq_true_eq] at this
          exact this hcur)]
      exact Aligned_nil _
  | case2 cur hv st h =>
    intro _
    rw [walkLoop, dif_neg h]
    exact Aligned_nil _

theorem walkLoop_chain_weekly (today : Date) (hist txs : List (Date × ℚ)) :
    ∀ (cur : Date) (hv : cur.Loose) (st : WState),
    List.Chain' (fun a b => b.date = a.date.addDays 7)
      (walkLoop today hist txs cur hv st) := by
  intro cur hv st
  induction cur, hv, st using walkLoop.induct today hist txs with
  | case1 cur hv st h st' ih =>
    rw [walkLoop, dif_pos h]
    dsimp only
    cases hfind : hist.find? (fun p => decide (cur ≤ p.1)) with
    | some p =>
      dsimp only
      by_cases hpos : 0 < (applyTxs hist cur st txs).cum
      · rw [if_pos hpos, List.singleton_append]
        have hA : Aligned (cur.addDays 7)
            (walkLoop today hist txs (cur.addDays 7) (Date.loose_addDays hv 7)
              (applyTxs hist cur st txs)) :=
          walkLoop_aligned today hist txs _ _ _ hpos
        rw [List.chain'_cons']
        exact ⟨fun y hy => Aligned_head hA y hy, Aligned_chain hA⟩
      · rw [if_neg hpos, List.nil_append]
        exact ih
    | none =>
      dsimp only
      rw [List.nil_append]
      exact ih
  | case2 cur hv st h =>
    rw [walkLoop, dif_neg h]
    exact List.chain'_nil

theorem walkLoop_portfolio_pos (today : Date) (hist txs : List (Date × ℚ)) :
    ∀ (cur : Date) (hv : cur.Loose) (st : WState),
    ∀ s ∈ walkLoop today hist txs cur hv st, 0 < s.portfolio := by
  intro cur hv st
  induction cur, hv, st using walkLoop.induct today hist txs with
  | case1 cur hv st h st' ih =>
    intro s hs
    rw [walkLoop, dif_pos h] at hs
    dsimp only at hs
    cases hfind : hist.find? (fun p => decide (cur ≤ p.1)) with
    | some p =>
      rw [hfind] at hs
      dsimp only at hs
      by_cases hpos : 0 < (applyTxs hist cur st txs).cum
      · rw [if_pos hpos, List.singleton_append] at hs
        rcases List.mem_cons.mp hs with he | hm
        · rw [he]
          exact hpos
        · exact ih s hm
      · rw [if_neg hpos, List.nil_append] at hs
        exact ih s hs
    | none =>
      rw [hfind] at hs
      dsimp only at hs
      rw [List.nil_append] at hs
      exact ih s hs
  | case2 cur hv st h =>
    intro s hs
    rw [walkLoop, dif_neg h] at hs
    cases hs

theorem walkLoop_portfolio_mono (today : Date) (hist txs : List (Date × ℚ)) :
    ∀ (cur : Date) (hv : cur.Loose) (st : WState),
    List.Chain' (fun a b => a.portfolio ≤ b.portfolio)
      (walkLoop today hist txs cur hv st) ∧
    (∀ s ∈ walkLoop today hist txs cur hv st, st.cum ≤ s.portfolio) := by
  intro cur hv st
  induction cur, hv, st using walkLoop.induct today hist txs with
  | case1 cur hv st h st' ih =>
    obtain ⟨ihc, ihm⟩ := ih
    have hle : st.cum ≤ (applyTxs hist cur st txs).cum := applyTxs_cum_le hist cur txs st
    rw [walkLoop, dif_pos h]
    dsimp only
    cases hfind : hist.find? (fun p => decide (cur ≤ p.1)) with
    | some p =>
      dsimp only
      by_cases hpos : 0 < (applyTxs hist cur st txs).cum
      · rw [if_pos hpos, List.singleton_append]
        constructor
        · rw [List.chain'_cons']
          refine ⟨fun y hy => ?_, ihc⟩
          exact ihm y (List.mem_of_mem_head? hy)
        · intro s hs
          rcases List.mem_cons.mp hs with he | hm
          · rw [he]
            exact hle
          · exact le_trans hle (ihm s hm)
      · rw [if_neg hpos, List.nil_append]
        exact ⟨ihc, fun s hs => le_trans hle (ihm s hs)⟩
    | none =>
      dsimp only
      rw [List.nil_append]
      exact ⟨ihc, fun s hs => le_trans hle (ihm s hs)⟩
  | case2 cur hv st h =>
    rw [walkLoop, dif_neg h]
    exact ⟨List.chain'_nil, fun s hs => absurd hs (List.not_mem_nil s)⟩

/-- C6: `get_historical_performance_optimized` never emits a sample while
cumulative invested capital is zero (every emitted sample carries a
strictly positive cumulative investment), and consecutive emitted samples
are dated exactly seven days apart — the list may end early when benchmark
data runs out, but it has no internal gaps. -/
theorem getHistoricalPerformanceOptimized_positive_and_weekly (today : Date)
    (iorders : List (String × (List Date × List ℚ))) (start : Date)
    (hs : start.Loose) (hist : List (Date × ℚ)) :
    (∀ s ∈ getHistoricalPerformanceOptimized today iorders start hs hist,
      0 < s.portfolio) ∧
    List.Chain' (fun a b => b.date = a.date.addDays 7)
      (getHistoricalPerformanceOptimized today iorders start hs hist) := by
  unfold getHistoricalPerformanceOptimized
  split
  · exact ⟨fun s hs => absurd hs (List.not_mem_nil s), List.chain'_nil⟩
  · exact ⟨walkLoop_portfolio_pos today hist _ start hs ⟨0, 0, 0, []⟩,
      walkLoop_chain_weekly today hist _ start hs ⟨0, 0, 0, []⟩⟩

/-- Witness for C6 at a concrete input whose walk emits several samples. -/
theorem getHistoricalPerformanceOptimized_positive_and_weekly_witness :
    Date.Loose ⟨2024, 1, 1⟩ ∧
    ((∀ s ∈ getHistoricalPerformanceOptimized ⟨2024, 1, 20⟩
        [("A", ([⟨2024, 1, 3⟩], [-10]))] ⟨2024, 1, 1⟩ (by decide)
        [(⟨2024, 1, 2⟩, 5), (⟨2024, 2, 1⟩, 6)], 0 < s.portfolio) ∧
    List.Chain' (fun a b => b.date = a.date.addDays 7)
      (getHistoricalPerformanceOptimized ⟨2024, 1, 20⟩
        [("A", ([⟨2024, 1, 3⟩], [-10]))] ⟨2024, 1, 1⟩ (by decide)
        [(⟨2024, 1, 2⟩, 5), (⟨2024, 2, 1⟩, 6)])) :=
  ⟨by decide,
   getHistoricalPerformanceOptimized_positive_and_weekly ⟨2024, 1, 20⟩
     [("A", ([⟨2024, 1, 3⟩], [-10]))] ⟨2024, 1, 1⟩ (by decide)
     [(⟨2024, 1, 2⟩, 5), (⟨2024, 2, 1⟩, 6)]⟩

/-- C10: across the emitted sample list the reported `portfolio` value
(cumulative investment) is monotonically nondecreasing, because every
applied transaction — buy or sell alike — adds its absolute magnitude to
cumulative investment (second conjunct), so sells never reduce the curve. -/
theorem getHistoricalPerformanceOptimized_portfolio_monotone (today : Date)
    (iorders : List (String × (List Date × List ℚ))) (start : Date)
    (hs : start.Loose) (hist : List (Date × ℚ)) :
    List.Chain' (fun a b => a.portfolio ≤ b.portfolio)
      (getHistoricalPerformanceOptimized today iorders start hs hist) ∧
    (∀ (hist2 : List (Date × ℚ)) (cutoff : Date) (st : WState) (t : Date × ℚ),
      (applyTxStep hist2 cutoff st t).cum =
        st.cum + (if t.1 ≤ cutoff ∧ t.1 ∉ st.seen then |t.2| else 0)) := by
  constructor
  · unfold getHistoricalPerformanceOptimized
    split
    · exact List.chain'_nil
    · exact (walkLoop_portfolio_mono today hist _ start hs ⟨0, 0, 0, []⟩).1
  · exact applyTxStep_cum

/-- Witness for C10 at a concrete input with a buy and a later sell. -/
theorem getHistoricalPerformanceOptimized_portfolio_monotone_witness :
    Date.Loose ⟨2024, 1, 1⟩ ∧
    (List.Chain' (fun a b => a.portfolio ≤ b.portfolio)
      (getHistoricalPerformanceOptimized ⟨2024, 1, 20⟩
        [("A", ([⟨2024, 1, 3⟩, ⟨2024, 1, 10⟩], [-10, 4]))] ⟨2024, 1, 1⟩ (by decide)
        [(⟨2024, 1, 2⟩, 5), (⟨2024, 2, 1⟩, 6)]) ∧
    (∀ (hist2 : List (Date × ℚ)) (cutoff : Date) (st : WState) (t : Date × ℚ),
      (applyTxStep hist2 cutoff st t).cum =
        st.cum + (if t.1 ≤ cutoff ∧ t.1 ∉ st.seen then |t.2| else 0))) :=
  ⟨by decide,
   getHistoricalPerformanceOptimized_portfolio_monotone ⟨2024, 1, 20⟩
     [("A", ([⟨2024, 1, 3⟩, ⟨2024, 1, 10⟩], [-10, 4]))] ⟨2024, 1, 1⟩ (by decide)
     [(⟨2024, 1, 2⟩, 5), (⟨2024, 2, 1⟩, 6)]⟩

/-- Month key of a date: the pair rendered as the `"YYYY-MM"` string key
(the rendering is injective, so the pair stands for the string). -/
def monthKeyPair (d : Date) : Nat × Nat := (d.year, d.month)

/-- Order on month keys matching string comparison of `"YYYY-MM"` keys. -/
def pairLe (a b : Nat × Nat) : Prop := a.1 < b.1 ∨ (a.1 = b.1 ∧ a.2 ≤ b.2)

/-- Strict order on month keys. -/
def pairLt (a b : Nat × Nat) : Prop := a.1 < b.1 ∨ (a.1 = b.1 ∧ a.2 < b.2)

instance (a b : Nat × Nat) : Decidable (pairLe a b) :=
  inferInstanceAs (Decidable (_ ∨ _))

instance (a b : Nat × Nat) : Decidable (pairLt a b) :=
  inferInstanceAs (Decidable (_ ∨ _))

theorem pairLe_of_not_pairLe {a b : Nat × Nat} (h : ¬ pairLe b a) : pairLe a b := by
  unfold pairLe at *
  omega

theorem pairLe_trans {a b c : Nat × Nat} (h1 : pairLe a b) (h2 : pairLe b c) : pairLe a c := by
  unfold pairLe at *
  omega

theorem pairLt_of_pairLe_ne {a b : Nat × Nat} (hle : pairLe a b) (hne : a ≠ b) :
    pairLt a b := by
  obtain ⟨a1, a2⟩ := a
  obtain ⟨b1, b2⟩ := b
  simp only [ne_eq, Prod.mk.injEq, not_and] at hne
  unfold pairLe at hle
  unfold pairLt
  dsimp only at *
  by_cases he : a1 = b1
  · subst he
    simp only [forall_const] at hne
    omega
  · omega

/-- Insertion of a month key into an ascending key list, after every
earlier-or-equal key. -/
def insertKey (x : Nat × Nat) : List (Nat × Nat) → List (Nat × Nat)
  | [] => [x]
  | y :: ys => if pairLe y x then y :: insertKey x ys else x :: y :: ys

/-- Models `sorted(monthly_totals.keys())`: ascending sort of the distinct
month keys. -/
def sortKeys (l : List (Nat × Nat)) : List (Nat × Nat) :=
  l.foldl (fun acc x => insertKey x acc) []

theorem insertKey_perm (x : Nat × Nat) : ∀ l : List (Nat × Nat),
    List.Perm (insertKey x l) (x :: l) := by
  intro l
  induction l with
  | nil => rfl
  | cons y ys ih =>
    unfold insertKey
    split
    · exact ((ih.cons y).trans (List.Perm.swap x y ys)).symm.symm
    · exact List.Perm.refl _

theorem sortKeys_perm_aux : ∀ (l acc : List (Nat × Nat)),
    List.Perm (l.foldl (fun acc x => insertKey x acc) acc) (acc ++ l) := by
  intro l
  induction l with
  | nil => intro acc; simp
  | cons x xs ih =>
    intro acc
    have h1 : List.Perm ((insertKey x acc) ++ xs) (acc ++ x :: xs) :=
      ((insertKey_perm x acc).append_right xs).trans List.perm_middle.symm
    exact (ih (insertKey x acc)).trans h1

theorem sortKeys_perm (l : List (Nat × Nat)) : List.Perm (sortKeys l) l := by
  have := sortKeys_perm_aux l []
  simpa [sortKeys] using this

theorem insertKey_pairwise (x : Nat × Nat) : ∀ l : List (Nat × Nat),
    l.Pairwise pairLe → (insertKey x l).Pairwise pairLe := by
  intro l
  induction l with
  | nil => intro _; exact List.pairwise_singleton _ _
  | cons y ys ih =>
    intro hp
    rw [List.pairwise_cons] at hp
    obtain ⟨hy, hys⟩ := hp
    unfold insertKey
    split
    · rename_i hle
      rw [List.pairwise_cons]
      constructor
      · intro a ha
        rcases List.mem_cons.mp ((insertKey_perm x ys).mem_iff.mp ha) with he | hm
        · exact he ▸ hle
        · exact hy a hm
      · exact ih hys
    · rename_i hnle
      rw [List.pairwise_cons]
      constructor
      · intro a ha
        rcases List.mem_cons.mp ha with he | hm
        · exact he ▸ pairLe_of_not_pairLe hnle
        · exact pairLe_trans (pairLe_of_not_pairLe hnle) (hy a hm)
      · rw [List.pairwise_cons]
        exact ⟨hy, hys⟩

theorem sortKeys_pairwise_aux : ∀ (l acc : List (Nat × Nat)),
    acc.Pairwise pairLe →
    (l.foldl (fun acc x => insertKey x acc) acc).Pairwise pairLe := by
  intro l
  induction l with
  | nil => intro acc h; exact h
  | cons x xs ih =>
    intro acc h
    exact ih (insertKey x acc) (insertKey_pairwise x acc h)

theorem sortKeys_pairwise (l : List (Nat × Nat)) : (sortKeys l).Pairwise pairLe :=
  sortKeys_pairwise_aux l [] List.Pairwise.nil

/-- One row of the monthly summary; `month` is the `(year, month)` key (the
source renders it as a `'%b %Y'` label, an injective display formatting). -/
structure MonthRow where
  month : Nat × Nat
  buy : ℚ
  sell : ℚ
  net : ℚ
deriving DecidableEq, Repr

/-- Models `get_monthly_cash_flows(individual_orders)`: per-symbol
`zip(dates, amounts)` pairs are bucketed by month key, magnitudes of
negative amounts into `buy` and the rest into `sell`, and the buckets are
emitted in ascending key order.  The incremental `defaultdict` accumulation
is modelled as, for each distinct key in sorted order, the sum of the
matching amounts.  (The source re-parses each date string inside a
try/except and skips unparseable ones; the aggregator only ever hands it
canonical date strings, which always parse, so the skip branch is dead and
not modelled.) -/
def getMonthlyCashFlows (iorders : List (String × (List Date × List ℚ))) :
    List MonthRow :=
  let flows := iorders.foldl (fun acc kv => acc ++ kv.2.1.zip kv.2.2) []
  let keys := sortKeys (flows.map (fun f => monthKeyPair f.1)).dedup
  keys.map (fun k =>
    let b := ((flows.filter (fun f => decide (monthKeyPair f.1 = k ∧ f.2 < 0))).map
      (fun f => |f.2|)).sum
    let v := ((flows.filter (fun f => decide (monthKeyPair f.1 = k ∧ ¬ f.2 < 0))).map
      (fun f => f.2)).sum
    { month := k, buy := b, sell := v, net := v - b })

theorem buy_sum_erase (flows : List (Date × ℚ)) (k k' : Nat × Nat) (hkk : k' ≠ k) :
    ((flows.filter (fun f => decide (monthKeyPair f.1 = k' ∧ f.2 < 0))).map
      (fun f => |f.2|)).sum =
    (((flows.filter (fun f => !decide (monthKeyPair f.1 = k))).filter
      (fun f => decide (monthKeyPair f.1 = k' ∧ f.2 < 0))).map (fun f => |f.2|)).sum := by
  rw [List.filter_filter]
  congr 1
  congr 1
  apply List.filter_congr
  intro f _
  by_cases h1 : monthKeyPair f.1 = k' ∧ f.2 < 0
  · have h2 : monthKeyPair f.1 ≠ k := h1.1 ▸ hkk
    simp [h1, h2, hkk]
  · simp [h1]

theorem buy_total_split (flows : List (Date × ℚ)) (k : Nat × Nat) :
    ((flows.filter (fun f => decide (f.2 < 0))).map (fun f => |f.2|)).sum =
    ((flows.filter (fun f => decide (monthKeyPair f.1 = k ∧ f.2 < 0))).map
      (fun f => |f.2|)).sum +
    (((flows.filter (fun f => !decide (monthKeyPair f.1 = k))).filter
      (fun f => decide (f.2 < 0))).map (fun f => |f.2|)).sum := by
  induction flows with
  | nil => simp
  | cons f fl ih =>
    by_cases hk : monthKeyPair f.1 = k <;> by_cases hn : f.2 < 0 <;>
      ((try simp [List.filter_cons, hk, hn] at ih); (try simp [List.filter_cons, hk, hn]);
       (try linarith [ih]))

theorem buy_partition : ∀ (ks : List (Nat × Nat)) (flows : List (Date × ℚ)),
    ks.Nodup → (∀ f ∈ flows, monthKeyPair f.1 ∈ ks) →
    (ks.map (fun k => ((flows.filter (fun f => decide (monthKeyPair f.1 = k ∧ f.2 < 0))).map
      (fun f => |f.2|)).sum)).sum =
    ((flows.filter (fun f => decide (f.2 < 0))).map (fun f => |f.2|)).sum := by
  intro ks
  induction ks with
  | nil =>
    intro flows _ hcov
    cases flows with
    | nil => simp
    | cons f fl => exact absurd (hcov f (List.mem_cons_self f fl)) (List.not_mem_nil _)
  | cons k ks' ih =>
    intro flows hnd hcov
    rw [List.nodup_cons] at hnd
    obtain ⟨hk_not, hnd'⟩ := hnd
    rw [List.map_cons, List.sum_cons]
    have hcongr : ∀ k' ∈ ks',
        ((flows.filter (fun f => decide (monthKeyPair f.1 = k' ∧ f.2 < 0))).map
          (fun f => |f.2|)).sum =
        (((flows.filter (fun f => !decide (monthKeyPair f.1 = k))).filter
          (fun f => decide (monthKeyPair f.1 = k' ∧ f.2 < 0))).map (fun f => |f.2|)).sum :=
      fun k' hk' => buy_sum_erase flows k k' (fun he => hk_not (he ▸ hk'))
    rw [List.map_congr_left hcongr]
    have hcov' : ∀ f ∈ flows.filter (fun f => !decide (monthKeyPair f.1 = k)),
        monthKeyPair f.1 ∈ ks' := by
      intro f hf
      rw [List.mem_filter] at hf
      obtain ⟨hfm, hfk⟩ := hf
      rcases List.mem_cons.mp (hcov f hfm) with he | hm
      · exfalso
        simp only [Bool.not_eq_true', decide_eq_false_iff_not] at hfk
        exact hfk he
      · exact hm
    rw [ih (flows.filter (fun f => !decide (monthKeyPair f.1 = k))) hnd' hcov']
    exact (buy_total_split flows k).symm

/-- C7: in the monthly summary every emitted month satisfies
`net = sell - buy` by construction, months come out in strictly ascending
chronological order, and the `buy` totals over all months sum to the total
magnitude of all negative flows across all symbols' transactions. -/
theorem getMonthlyCashFlows_spec (iorders : List (String × (List Date × List ℚ))) :
    (∀ r ∈ getMonthlyCashFlows iorders, r.net = r.sell - r.buy) ∧
    List.Chain' (fun a b => pairLt a.month b.month) (getMonthlyCashFlows iorders) ∧
    ((getMonthlyCashFlows iorders).map (fun r => r.buy)).sum =
      (((iorders.foldl (fun acc kv => acc ++ kv.2.1.zip kv.2.2) []).filter
        (fun f => decide (f.2 < 0))).map (fun f => |f.2|)).sum := by
  have hnodup : (sortKeys ((iorders.foldl (fun acc kv => acc ++ kv.2.1.zip kv.2.2) []).map
      (fun f => monthKeyPair f.1)).dedup).Nodup :=
    ((sortKeys_perm _).nodup_iff).mpr (List.nodup_dedup _)
  refine ⟨?_, ?_, ?_⟩
  · intro r hr
    unfold getMonthlyCashFlows at hr
    simp only [List.mem_map] at hr
    obtain ⟨k, _, hrk⟩ := hr
    rw [← hrk]
  · unfold getMonthlyCashFlows
    rw [List.chain'_map]
    exact List.Pairwise.chain'
      (((sortKeys_pairwise _).and hnodup).imp (fun h => pairLt_of_pairLe_ne h.1 h.2))
  · unfold getMonthlyCashFlows
    rw [List.map_map]
    exact buy_partition _ _ hnodup
      (fun f hf => ((sortKeys_perm _).mem_iff).mpr (List.mem_dedup.mpr
        (List.mem_map_of_mem _ hf)))

/-- Witness for C7 at a concrete input: one buy of 300 and one sell of 100
in March 2024. -/
theorem getMonthlyCashFlows_spec_witness :
    (∀ r ∈ getMonthlyCashFlows [("A", ([⟨2024, 3, 15⟩, ⟨2024, 3, 20⟩], [-300, 100]))],
      r.net = r.sell - r.buy) ∧
    List.Chain' (fun a b => pairLt a.month b.month)
      (getMonthlyCashFlows [("A", ([⟨2024, 3, 15⟩, ⟨2024, 3, 20⟩], [-300, 100]))]) ∧
    ((getMonthlyCashFlows [("A", ([⟨2024, 3, 15⟩, ⟨2024, 3, 20⟩], [-300, 100]))]).map
      (fun r => r.buy)).sum =
      ((([("A", (([⟨2024, 3, 15⟩, ⟨2024, 3, 20⟩] : List Date), ([-300, 100] : List ℚ)))].foldl
          (fun acc kv => acc ++ kv.2.1.zip kv.2.2) []).filter
        (fun f => decide (f.2 < 0))).map (fun f => |f.2|)).sum :=
  getMonthlyCashFlows_spec [("A", ([⟨2024, 3, 15⟩, ⟨2024, 3, 20⟩], [-300, 100]))]

theorem prefetch_foldA (fetch : String → Option String) (u s : String)
    (hu : fetch u = some s) : ∀ (l : List String) (c : List (String × String)),
    alGet? c u = some s →
    alGet? (l.foldl (fun c u =>
      match fetch u with
      | some s => if s ≠ "" then alSet c u s else c
      | none => c) c) u = some s := by
  intro l
  induction l with
  | nil => intro c hc; exact hc
  | cons v t ih =>
    intro c hc
    apply ih
    dsimp only
    cases hfv : fetch v with
    | none =>
      exact hc
    | some sv =>
      dsimp only
      by_cases hne : sv ≠ ""
      · rw [if_pos hne]
        by_cases hv : v = u
        · subst hv
          have hss : sv = s := Option.some.inj (hfv.symm.trans hu)
          subst hss
          rw [alGet?_alSet_self]
        · rw [alGet?_alSet_ne _ _ _ _ (fun he => hv he.symm)]
          exact hc
      · rw [if_neg hne]
        exact hc

theorem prefetch_foldB (fetch : String → Option String) (u s : String)
    (hu : fetch u = some s) (hne : s ≠ "") : ∀ (l : List String) (c : List (String × String)),
    u ∈ l →
    alGet? (l.foldl (fun c u =>
      match fetch u with
      | some s => if s ≠ "" then alSet c u s else c
      | none => c) c) u = some s := by
  intro l
  induction l with
  | nil => intro c hc; cases hc
  | cons v t ih =>
    intro c hc
    rcases List.mem_cons.mp hc with he | hm
    · subst he
      rw [List.foldl_cons]
      apply prefetch_foldA fetch u s hu
      dsimp only
      rw [hu]
      dsimp only
      rw [if_pos hne, alGet?_alSet_self]
    · exact ih _ hm

theorem prefetch_foldC (fetch : String → Option String) (u : String)
    (hu : fetch u = none) : ∀ (l : List String) (c : List (String × String)),
    alGet? c u = none →
    alGet? (l.foldl (fun c u =>
      match fetch u with
      | some s => if s ≠ "" then alSet c u s else c
      | none => c) c) u = none := by
  intro l
  induction l with
  | nil => intro c hc; exact hc
  | cons v t ih =>
    intro c hc
    apply ih
    dsimp only
    cases hfv : fetch v with
    | none =>
      exact hc
    | some sv =>
      dsimp only
      have hv : v ≠ u := fun he => by rw [he, hu] at hfv; cases hfv
      by_cases hsv : sv ≠ ""
      · rw [if_pos hsv, alGet?_alSet_ne _ _ _ _ (fun he => hv he.symm)]
        exact hc
      · rw [if_neg hsv]
        exact hc

theorem processOrder_cache_none (fetch : String → Option String) (st : POState)
    (o : OrderRec) (st' : POState) (u : String)
    (hok : processOrder fetch st o = .ok st')
    (hu : fetch u = none) (hc : alGet? st.cache u = none) :
    alGet? st'.cache u = none := by
  unfold processOrder at hok
  unfold getInstrumentSymbol at hok
  cases hgi : alGet? st.cache o.instrument with
  | some s =>
    rw [hgi] at hok
    dsimp only at hok
    split at hok
    · split at hok
      · cases hok
      · rename_i dt heq
        cases hok
        exact hc
    · cases hok
      exact hc
  | none =>
    rw [hgi] at hok
    dsimp only at hok
    cases hfo : fetch o.instrument with
    | none =>
      rw [hfo] at hok
      cases hok
    | some s =>
      rw [hfo] at hok
      dsimp only at hok
      have hne : o.instrument ≠ u := fun he => by rw [he, hu] at hfo; cases hfo
      split at hok
      · split at hok
        · cases hok
        · cases hok
          exact (alGet?_alSet_ne _ _ _ _ (fun he => hne he.symm)).trans hc
      · cases hok
        exact (alGet?_alSet_ne _ _ _ _ (fun he => hne he.symm)).trans hc

/-- Counterexample for C8: a batch containing one identifier whose fetch
fails completes and leaves the identifier unresolved, but the downstream
consumer (`process_orders_optimized` via `get_instrument_symbol`) does not
skip it — it re-attempts the fetch and the failure propagates, aborting the
report computation with an error instead of producing a result. -/
theorem prefetch_downstream_aborts_counterexample :
    processOrdersOptimized (fun _ => none)
      (prefetchInstruments (fun _ => none) [] ["u8"]) ⟨⟨2024, 1, 1⟩, 0⟩
      [{ instrument := "u8", state := "queued", side := "buy", executions := [],
         lastTransactionAt := .malformed }] =
      .error .instrumentLookupFailed := by rfl

/-- C8 (amended): a batch with failing fetches still completes: every
not-yet-cached identifier whose fetch succeeds with a truthy symbol is
cached, a failing identifier is left unresolved, and when
`process_orders_optimized` later meets an order whose still-uncached
identifier still fails to fetch, the lookup error propagates and aborts the
pass (it is not skipped). -/
theorem prefetchInstruments_partial_failure (fetch : String → Option String) :
    (∀ (cache : List (String × String)) (urls : List String) (u s : String),
      u ∈ urls → alGet? cache u = none → fetch u = some s → s ≠ "" →
      alGet? (prefetchInstruments fetch cache urls) u = some s) ∧
    (∀ (cache : List (String × String)) (urls : List String) (u : String),
      alGet? cache u = none → fetch u = none →
      alGet? (prefetchInstruments fetch cache urls) u = none) ∧
    (∀ (orders : List OrderRec) (st : POState) (o : OrderRec),
      o ∈ orders → alGet? st.cache o.instrument = none → fetch o.instrument = none →
      ∃ e, processOrdersGo fetch st orders = .error e) := by
  refine ⟨?_, ?_, ?_⟩
  · intro cache urls u s hmem hcache hfetch hne
    unfold prefetchInstruments
    apply prefetch_foldB fetch u s hfetch hne
    rw [List.mem_filter]
    exact ⟨hmem, by rw [hcache]; rfl⟩
  · intro cache urls u hcache hfetch
    unfold prefetchInstruments
    exact prefetch_foldC fetch u hfetch _ cache hcache
  · intro orders
    induction orders with
    | nil => intro st o hmem _ _; cases hmem
    | cons o1 os ih =>
      intro st o hmem hcache hfetch
      rcases List.mem_cons.mp hmem with he | hm
      · subst he
        have herr : processOrder fetch st o = .error .instrumentLookupFailed := by
          unfold processOrder getInstrumentSymbol
          rw [hcache, hfetch]
        refine ⟨.instrumentLookupFailed, ?_⟩
        unfold processOrdersGo
        rw [herr]
      · cases hpo : processOrder fetch st o1 with
        | error e =>
          refine ⟨e, ?_⟩
          unfold processOrdersGo
          rw [hpo]
        | ok st' =>
          obtain ⟨e, he⟩ := ih st' o hm
            (processOrder_cache_none fetch st o1 st' o.instrument hpo hfetch hcache) hfetch
          refine ⟨e, ?_⟩
          unfold processOrdersGo
          rw [hpo]
          exact he

/-- Witness for C8's amended statement at concrete inputs: one succeeding
and one failing identifier, and a pass over one order using the failing
identifier. -/
theorem prefetchInstruments_partial_failure_witness :
    alGet? (prefetchInstruments (fun u => if u = "ok" then some "OK" else none)
      [] ["ok", "bad"]) "ok" = some "OK" ∧
    alGet? (prefetchInstruments (fun u => if u = "ok" then some "OK" else none)
      [] ["ok", "bad"]) "bad" = none ∧
    (∃ e, processOrdersGo (fun u => if u = "ok" then some "OK" else none)
      { cache := [], iorders := [], stockDates := [], allDates := [] }
      [{ instrument := "bad", state := "queued", side := "buy", executions := [],
         lastTransactionAt := .malformed }] = .error e) :=
  ⟨(prefetchInstruments_partial_failure _).1 [] ["ok", "bad"] "ok" "OK"
     (by decide) rfl rfl (by decide),
   (prefetchInstruments_partial_failure _).2.1 [] ["ok", "bad"] "bad" rfl rfl,
   (prefetchInstruments_partial_failure _).2.2
     [{ instrument := "bad", state := "queued", side := "buy", executions := [],
        lastTransactionAt := .malformed }]
     { cache := [], iorders := [], stockDates := [], allDates := [] }
     { instrument := "bad", state := "queued", side := "buy", executions := [],
       lastTransactionAt := .malformed }
     (List.mem_cons_self _ _) rfl rfl⟩

/-- Counterexample for C9: a filled order whose timestamp parses under
neither format is not skipped — the second `strptime` raises out of
`process_orders_optimized` and the whole pass aborts with an error. -/
theorem timestamp_both_formats_fail_aborts_counterexample :
    processOrdersOptimized (fun _ => some "AAPL") [] ⟨⟨2024, 1, 1⟩, 0⟩
      [{ instrument := "u9", state := "filled", side := "buy",
         executions := [{ date := ⟨2024, 1, 2⟩, roundedNotional := 3 }],
         lastTransactionAt := .malformed }] =
      .error .timestampParseFailed := by rfl

/-- C9 (amended): for each filled order's last-transaction timestamp,
parsing attempts exactly two formats — trailing `Z` without fractional
seconds first, then with fractional seconds as the fallback — and a record
whose timestamp fails both formats raises: the error propagates out of
`process_orders_optimized` and aborts the report computation (the record is
not skipped). -/
theorem parseLastTransaction_two_formats_then_abort :
    (∀ (ts : Timestamp) (dt : DT), strptimeZ ts = some dt →
      parseLastTransaction ts = .ok dt) ∧
    (∀ (ts : Timestamp) (dt : DT), strptimeZ ts = none → strptimeFracZ ts = some dt →
      parseLastTransaction ts = .ok dt) ∧
    (∀ ts : Timestamp, strptimeZ ts = none → strptimeFracZ ts = none →
      parseLastTransaction ts = .error .timestampParseFailed) ∧
    (∀ (fetch : String → Option String) (orders : List OrderRec) (st : POState)
      (o : OrderRec), o ∈ orders → o.state = "filled" →
      strptimeZ o.lastTransactionAt = none → strptimeFracZ o.lastTransactionAt = none →
      ∃ e, processOrdersGo fetch st orders = .error e) := by
  refine ⟨?_, ?_, ?_, ?_⟩
  · intro ts dt h
    unfold parseLastTransaction
    rw [h]
  · intro ts dt h1 h2
    unfold parseLastTransaction
    rw [h1, h2]
  · intro ts h1 h2
    unfold parseLastTransaction
    rw [h1, h2]
  · intro fetch orders
    induction orders with
    | nil => intro st o hmem _ _ _; cases hmem
    | cons o1 os ih =>
      intro st o hmem hfilled hz hfz
      rcases List.mem_cons.mp hmem with he | hm
      · subst he
        cases hpo : processOrder fetch st o with
        | error e =>
          refine ⟨e, ?_⟩
          unfold processOrdersGo
          rw [hpo]
        | ok st' =>
          exfalso
          unfold processOrder at hpo
          cases hgi : getInstrumentSymbol fetch st.cache o.instrument with
          | error e => rw [hgi] at hpo; cases hpo
          | ok pr =>
            rw [hgi] at hpo
            dsimp only at hpo
            rw [if_pos hfilled] at hpo
            have hparse : parseLastTransaction o.lastTransactionAt =
                .error .timestampParseFailed := by
              unfold parseLastTransaction
              rw [hz, hfz]
            rw [hparse] at hpo
            cases hpo
      · cases hpo : processOrder fetch st o1 with
        | error e =>
          refine ⟨e, ?_⟩
          unfold processOrdersGo
          rw [hpo]
        | ok st' =>
          obtain ⟨e, he⟩ := ih st' o hm hfilled hz hfz
          refine ⟨e, ?_⟩
          unfold processOrdersGo
          rw [hpo]
          exact he

/-- Witness for C9's amended statement at concrete inputs: each parse class
and an aborting pass over one malformed filled order. -/
theorem parseLastTransaction_two_formats_then_abort_witness :
    parseLastTransaction (.plain ⟨⟨2024, 1, 2⟩, 5⟩) = .ok ⟨⟨2024, 1, 2⟩, 5⟩ ∧
    parseLastTransaction (.withFrac ⟨⟨2024, 1, 2⟩, 7⟩) = .ok ⟨⟨2024, 1, 2⟩, 7⟩ ∧
    parseLastTransaction .malformed = .error .timestampParseFailed ∧
    (∃ e, processOrdersGo (fun _ => some "AAPL")
      { cache := [], iorders := [], stockDates := [], allDates := [] }
      [{ instrument := "u9", state := "filled", side := "buy",
         executions := [{ date := ⟨2024, 1, 2⟩, roundedNotional := 3 }],
         lastTransactionAt := .malformed }] = .error e) :=
  ⟨parseLastTransaction_two_formats_then_abort.1 (.plain ⟨⟨2024, 1, 2⟩, 5⟩) _ rfl,
   parseLastTransaction_two_formats_then_abort.2.1 (.withFrac ⟨⟨2024, 1, 2⟩, 7⟩) _ rfl rfl,
   parseLastTransaction_two_formats_then_abort.2.2.1 .malformed rfl rfl,
   parseLastTransaction_two_formats_then_abort.2.2.2 (fun _ => some "AAPL")
     [{ instrument := "u9", state := "filled", side := "buy",
        executions := [{ date := ⟨2024, 1, 2⟩, roundedNotional := 3 }],
        lastTransactionAt := .malformed }]
     { cache := [], iorders := [], stockDates := [], allDates := [] }
     { instrument := "u9", state := "filled", side := "buy",
       executions := [{ date := ⟨2024, 1, 2⟩, roundedNotional := 3 }],
       lastTransactionAt := .malformed }
     (List.mem_cons_self _ _) rfl rfl rfl⟩
